import Mathlib

/-!
Verification of the Airline-Ticket-Booking waitlist heap and booking ledger.

This file gives a shallow embedding of the two core components of the
repository:

* `src/src/heap/BinomialHeap.cpp` — a binomial heap keyed by an integer
  priority (lower value = served first) with passenger ids as payload;
* `src/src/booking/Flight.cpp` — the per-flight seat ledger (capacity,
  confirmed list, waitlist heap) with `addPassenger` and `cancelBooking`.

C++ `int` priorities and passenger ids are modelled as `Int` (they are only
ever compared, never subject to arithmetic, so overflow cannot occur);
`degree` and sizes are `Nat` (the C++ code only ever increments them from 0).
-/

/-- One waitlist entry (`BinomialHeapNode` in `include/heap/BinomialHeapNode.h`).
The C++ node stores `child`, the head of a sibling-linked list of children
(most recently linked child first), plus a `parent` pointer that is only used
transiently during restructuring and reset to null for roots.  Here the
sibling-linked child list is represented directly as the list `children`
(same order: head = most recently linked = highest degree); the transient
`parent` pointer has no observable effect and is omitted. -/
inductive HNode : Type where
  | mk (priority : Int) (passengerId : Int) (degree : Nat) (children : List HNode)

@[simp] def HNode.priority : HNode → Int
  | .mk p _ _ _ => p

@[simp] def HNode.passengerId : HNode → Int
  | .mk _ i _ _ => i

@[simp] def HNode.degree : HNode → Nat
  | .mk _ _ d _ => d

@[simp] def HNode.children : HNode → List HNode
  | .mk _ _ _ cs => cs

mutual
/-- All nodes of a tree (the node itself and all of its descendants),
as visited by the traversals in `BinomialHeap::getSize` / `clear`. -/
def HNode.nodes : HNode → List HNode
  | .mk p i d cs => .mk p i d cs :: nodesList cs
/-- All nodes of a forest. -/
def nodesList : List HNode → List HNode
  | [] => []
  | c :: cs => HNode.nodes c ++ nodesList cs
end

mutual
/-- The (priority, passengerId) pairs stored in a tree. -/
def HNode.elems : HNode → List (Int × Int)
  | .mk p i _ cs => (p, i) :: elemsList cs
/-- The (priority, passengerId) pairs stored in a forest. -/
def elemsList : List HNode → List (Int × Int)
  | [] => []
  | c :: cs => HNode.elems c ++ elemsList cs
end

mutual
/-- Min-heap order: every node's priority is ≤ the priority of each of its
children, recursively ("a node's priority ≤ priority of all its
descendants"). -/
def HNode.wellOrdered : HNode → Bool
  | .mk p _ _ cs => wellOrderedChildren p cs
/-- Each child has priority ≥ `p` and is itself heap-ordered. -/
def wellOrderedChildren : Int → List HNode → Bool
  | _, [] => true
  | p, c :: cs => (decide (p ≤ c.priority) && HNode.wellOrdered c) && wellOrderedChildren p cs
end

mutual
/-- Binomial-tree structure: a node of degree `d` has exactly `d` children,
stored (most recently linked first) with degrees `d-1, d-2, …, 0`, each child
itself a binomial tree. -/
def HNode.isBinom : HNode → Bool
  | .mk _ _ d cs => (cs.length == d) && isBinomChildren d cs
/-- The children of a degree-`d` node, in stored order: degrees
`d-1, d-2, …`. -/
def isBinomChildren : Nat → List HNode → Bool
  | _, [] => true
  | d, c :: cs => ((c.degree == d - 1) && HNode.isBinom c) && isBinomChildren (d - 1) cs
end

/-- The heap itself: an ordered root list (`std::list<BinomialHeapNode*> roots`
in `include/heap/BinomialHeap.h`). -/
structure BinomialHeap : Type where
  roots : List HNode

/-- `BinomialHeap::link(y, z)`: make `y` the new head child of `z` and
increment `z`'s degree (`y->sibling = z->child; z->child = y; z->degree++`). -/
def BinomialHeap.link (y z : HNode) : HNode :=
  .mk z.priority z.passengerId (z.degree + 1) (y :: z.children)

/-- `BinomialHeap::mergeRootLists`: linear merge of the two root lists by
non-decreasing degree; on ties (`<=`) the root of `this` heap goes first. -/
def BinomialHeap.mergeRootLists : List HNode → List HNode → List HNode
  | [], l2 => l2
  | l1, [] => l1
  | n1 :: t1, n2 :: t2 =>
    if n1.degree ≤ n2.degree then n1 :: BinomialHeap.mergeRootLists t1 (n2 :: t2)
    else n2 :: BinomialHeap.mergeRootLists (n1 :: t1) t2

/-- The inner `while` loop of `BinomialHeap::consolidate`, acting on the
degree table from slot `cur.degree` upward: while the current slot holds a
tree `other`, link the one with the larger priority value under the one with
the smaller (on ties `current` wins, since the C++ swaps only when
`other->priority < current->priority`), clear the slot, and move to the next
slot; finally store the resulting tree in the slot where the walk stopped. -/
def BinomialHeap.carryMerge : List (Option HNode) → HNode → List (Option HNode)
  | [], cur => [some cur]
  | none :: rest, cur => some cur :: rest
  | some other :: rest, cur =>
    if other.priority < cur.priority then
      none :: BinomialHeap.carryMerge rest (BinomialHeap.link cur other)
    else
      none :: BinomialHeap.carryMerge rest (BinomialHeap.link other cur)

/-- One iteration of the outer loop of `BinomialHeap::consolidate`: insert the
tree `cur` into the degree table (padding the table with empty slots up to
`cur.degree` models the C++ `resize` with `nullptr`; slots below `cur.degree`
are untouched). -/
def BinomialHeap.tableInsert (t : List (Option HNode)) (cur : HNode) : List (Option HNode) :=
  let t' := t ++ List.replicate (cur.degree - t.length) none
  t'.take cur.degree ++ BinomialHeap.carryMerge (t'.drop cur.degree) cur

/-- Insert one root into an already-built prefix, after every earlier root of
smaller-or-equal degree (the stable insertion step of the final
`roots.sort` by ascending degree). -/
def BinomialHeap.insertByDegree (n : HNode) : List HNode → List HNode
  | [] => [n]
  | m :: ms =>
    if m.degree ≤ n.degree then m :: BinomialHeap.insertByDegree n ms else n :: m :: ms

/-- The final `roots.sort([](a, b){ return a->degree < b->degree; })` of
`BinomialHeap::consolidate`: a stable sort by ascending degree. -/
def BinomialHeap.sortByDegree (l : List HNode) : List HNode :=
  l.foldl (fun acc n => BinomialHeap.insertByDegree n acc) []

/-- `BinomialHeap::consolidate`: with two or more roots, walk the root list
inserting each tree into a degree table (linking equal-degree trees), then
rebuild the root list from the table in slot order and sort it by ascending
degree.  (The C++ pre-sizes the table from `log2(getSize())`; the table here
grows on demand, which the C++ `resize` also guarantees, so the initial size
has no semantic effect.) -/
def BinomialHeap.consolidate (rootsIn : List HNode) : List HNode :=
  if rootsIn.length ≤ 1 then rootsIn
  else BinomialHeap.sortByDegree ((rootsIn.foldl BinomialHeap.tableInsert []).filterMap id)

/-- `BinomialHeap::findMinNodeIterator`: scan the root list once, keeping the
first root whose priority is strictly smaller than the running minimum (so on
ties the earlier root wins); `none` when the list is empty. -/
def BinomialHeap.findMinNode : List HNode → Option HNode
  | [] => none
  | n :: rest =>
    match BinomialHeap.findMinNode rest with
    | none => some n
    | some m => some (if m.priority < n.priority then m else n)

/-- The min root together with the root list with that root erased at its
position (`roots.erase(min_it)` in `BinomialHeap::extractMin`); the root kept
on ties is the first one in root-list order, exactly as
`findMinNodeIterator` picks it. -/
def BinomialHeap.removeMinRoot : List HNode → Option (HNode × List HNode)
  | [] => none
  | n :: rest =>
    match BinomialHeap.removeMinRoot rest with
    | none => some (n, [])
    | some (m, rest') =>
      if m.priority < n.priority then some (m, n :: rest') else some (n, rest)

/-- `BinomialHeap::isEmpty`. -/
def BinomialHeap.isEmpty (h : BinomialHeap) : Bool := h.roots.isEmpty

/-- `BinomialHeap::getSize`: full traversal counting every node of every
tree. -/
def BinomialHeap.getSize (h : BinomialHeap) : Nat := (nodesList h.roots).length

/-- `BinomialHeap::insert`: wrap the new entry as a singleton degree-0 tree,
merge it into the root list, consolidate. -/
def BinomialHeap.insert (h : BinomialHeap) (priority passengerId : Int) : BinomialHeap :=
  ⟨BinomialHeap.consolidate
    (BinomialHeap.mergeRootLists h.roots [HNode.mk priority passengerId 0 []])⟩

/-- `BinomialHeap::findMinPriority`; throws `std::runtime_error("Heap is
empty")` when there are no roots, and does not mutate the heap (it is
`const` in the C++). -/
def BinomialHeap.findMinPriority (h : BinomialHeap) : Except String Int :=
  match BinomialHeap.findMinNode h.roots with
  | none => .error "Heap is empty"
  | some m => .ok m.priority

/-- `BinomialHeap::findMinPassengerId`; throws `std::runtime_error("Heap is
empty")` when there are no roots, and does not mutate the heap. -/
def BinomialHeap.findMinPassengerId (h : BinomialHeap) : Except String Int :=
  match BinomialHeap.findMinNode h.roots with
  | none => .error "Heap is empty"
  | some m => .ok m.passengerId

/-- `BinomialHeap::extractMin`: remove the minimum root, reverse its child
list (the C++ walks the sibling chain pushing each child to the front of the
temporary heap's root list) into a second forest, merge it back, consolidate,
and return the removed node's payload.  Throws
`std::runtime_error("Cannot extract from empty heap")` when there are no
roots — before any mutation. -/
def BinomialHeap.extractMin (h : BinomialHeap) : Except String (Int × BinomialHeap) :=
  match BinomialHeap.removeMinRoot h.roots with
  | none => .error "Cannot extract from empty heap"
  | some (m, rest) =>
    .ok (m.passengerId,
      ⟨BinomialHeap.consolidate (BinomialHeap.mergeRootLists rest m.children.reverse)⟩)

/-- The heap state the caller observes after a call to `extractMin`,
including the failing case: the C++ `throw` is the first statement of
`extractMin`, so a failed call leaves the heap exactly as it was. -/
def BinomialHeap.extractMinState (h : BinomialHeap) : BinomialHeap :=
  match h.extractMin with
  | .ok (_, h') => h'
  | .error _ => h

/-- The body of the `while (!isEmpty())` loop of
`BinomialHeap::getWaitlistOrdered_destructive`, run for at most `fuel`
iterations: read the minimum priority, extract the minimum, accumulate the
pair.  Each successful `extractMin` removes exactly one node, so running the
loop for `getSize` iterations (see `getWaitlistOrdered_destructive`) runs it
to completion; the second branch of the match is unreachable while the heap
is non-empty. -/
def BinomialHeap.drainLoop : Nat → BinomialHeap → List (Int × Int) × BinomialHeap
  | 0, h => ([], h)
  | fuel + 1, h =>
    if h.isEmpty then ([], h)
    else
      match h.findMinPriority, h.extractMin with
      | .ok prio, .ok (pid, h') =>
        let r := BinomialHeap.drainLoop fuel h'
        ((prio, pid) :: r.1, r.2)
      | _, _ => ([], h)

/-- `BinomialHeap::getWaitlistOrdered_destructive`: repeatedly extract the
minimum until the heap is empty, accumulating `(priority, passengerId)` pairs
in extraction order; returns the pairs together with the final (drained) heap
state.  The loop needs exactly `getSize` iterations. -/
def BinomialHeap.getWaitlistOrdered_destructive (h : BinomialHeap) :
    List (Int × Int) × BinomialHeap :=
  BinomialHeap.drainLoop h.getSize h

/-- The (priority, passengerId) pairs currently stored in a heap. -/
def heapElems (h : BinomialHeap) : List (Int × Int) := elemsList h.roots

/-- The contents of a heap as a multiset (traversal order forgotten). -/
def heapMS (h : BinomialHeap) : Multiset (Int × Int) := (heapElems h : Multiset (Int × Int))

/-- The (priority, passengerId) pairs stored across all occupied slots of a
degree table, in slot order. -/
def tableElems : List (Option HNode) → List (Int × Int)
  | [] => []
  | none :: rest => tableElems rest
  | some n :: rest => HNode.elems n ++ tableElems rest

/-- Degree-table invariant of `consolidate`: the tree in slot `i` (if any)
has degree `base + i`.  (`base` generalises over suffixes of the table.) -/
def TableDeg : Nat → List (Option HNode) → Prop
  | _, [] => True
  | base, o :: rest => (∀ n, o = some n → HNode.degree n = base) ∧ TableDeg (base + 1) rest

/-- Every tree stored in the degree table satisfies `P`. -/
def TableAll (P : HNode → Prop) : List (Option HNode) → Prop
  | [] => True
  | o :: rest => (∀ n, o = some n → P n) ∧ TableAll P rest

/-- A per-flight seat ledger (`class Flight` in `include/booking/Flight.h`):
a fixed capacity, the confirmed passenger list, and the waitlist heap. -/
structure Flight : Type where
  flightId : String
  origin : String
  destination : String
  capacity : Nat
  confirmedPassengers : List Int
  waitlistHeap : BinomialHeap

/-- The `Flight` constructor: `capacity(cap >= 0 ? cap : 0)` — a negative
capacity is clamped to zero, which is exactly `Int.toNat`; the confirmed list
starts empty and the waitlist heap is default-constructed (empty). -/
def mkFlight (id orig dest : String) (cap : Int) : Flight :=
  ⟨id, orig, dest, cap.toNat, [], ⟨[]⟩⟩

/-- `Flight::addPassenger`: already confirmed → report confirmed (`true`)
with no change; else if there is a free seat (`confirmedPassengers.size() <
capacity`) → append to the confirmed list, report confirmed; else → insert
`(priority, passengerId)` into the waitlist heap, report waitlisted
(`false`).  No check against existing waitlist membership is performed. -/
def Flight.addPassenger (f : Flight) (passengerId priority : Int) : Bool × Flight :=
  if passengerId ∈ f.confirmedPassengers then
    (true, f)
  else if f.confirmedPassengers.length < f.capacity then
    (true, { f with confirmedPassengers := f.confirmedPassengers ++ [passengerId] })
  else
    (false, { f with waitlistHeap := f.waitlistHeap.insert priority passengerId })

/-- `Flight::cancelBooking`: if the id is in the confirmed list, erase it
(first occurrence, as `std::find` + `erase`); then, if the waitlist is
non-empty, extract its minimum and append the promoted id to the confirmed
list, and report `true`.  If `extractMin` were to throw regardless (it
cannot, the heap was just checked non-empty) the C++ catches the exception
and keeps only the erasure.  An id absent from the confirmed list — even one
present in the waitlist — reports `false` with no state change. -/
def Flight.cancelBooking (f : Flight) (passengerId : Int) : Bool × Flight :=
  if passengerId ∈ f.confirmedPassengers then
    let confirmed' := f.confirmedPassengers.erase passengerId
    if f.waitlistHeap.isEmpty then
      (true, { f with confirmedPassengers := confirmed' })
    else
      match f.waitlistHeap.extractMin with
      | .ok (promoted, h') =>
        (true, { f with confirmedPassengers := confirmed' ++ [promoted], waitlistHeap := h' })
      | .error _ =>
        (true, { f with confirmedPassengers := confirmed' })
  else
    (false, f)

/-- `Flight::getBookedCount`. -/
def Flight.getBookedCount (f : Flight) : Nat := f.confirmedPassengers.length

/-- `Flight::getWaitlistCount`. -/
def Flight.getWaitlistCount (f : Flight) : Nat := f.waitlistHeap.getSize

/-- Every passenger id booked on the flight, confirmed or waitlisted, with
multiplicity. -/
def bookingIds (f : Flight) : Multiset Int :=
  (f.confirmedPassengers : Multiset Int) + (heapMS f.waitlistHeap).map Prod.snd

/-- Heap states reachable from the empty heap, together with the number of
`insert` calls and of successful `extractMin` calls that produced them (an
`extractMin` step is only possible when the call succeeds, i.e. the heap was
non-empty). -/
inductive HeapTrace : BinomialHeap → Nat → Nat → Prop where
  | empty : HeapTrace ⟨[]⟩ 0 0
  | insert {h n m} (p pid : Int) : HeapTrace h n m → HeapTrace (h.insert p pid) (n + 1) m
  | extract {h n m pid h'} : HeapTrace h n m → h.extractMin = .ok (pid, h') →
      HeapTrace h' n (m + 1)

/-- Heap states reachable from the empty heap via any sequence of `insert`
and (successful) `extractMin` operations. -/
def HeapReach (h : BinomialHeap) : Prop := ∃ n m, HeapTrace h n m

/-- `insert` calls applied in sequence, starting from a given heap. -/
def insertAll (h : BinomialHeap) (ops : List (Int × Int)) : BinomialHeap :=
  ops.foldl (fun h op => h.insert op.1 op.2) h

/-- Flight states reachable from a freshly constructed flight by any sequence
of `addPassenger` and `cancelBooking` calls. -/
inductive FlightReach : Flight → Prop where
  | init (id orig dest : String) (cap : Int) : FlightReach (mkFlight id orig dest cap)
  | add {f} (pid prio : Int) : FlightReach f → FlightReach (f.addPassenger pid prio).2
  | cancel {f} (pid : Int) : FlightReach f → FlightReach (f.cancelBooking pid).2

/-- Flight states reachable when the caller never calls `addPassenger` with an
id currently in the waitlist heap (the code itself performs no such check;
this is the §9 usage discipline under which bookings stay duplicate-free). -/
inductive FlightReachSafe : Flight → Prop where
  | init (id orig dest : String) (cap : Int) : FlightReachSafe (mkFlight id orig dest cap)
  | add {f} (pid prio : Int) : FlightReachSafe f →
      pid ∉ (heapElems f.waitlistHeap).map Prod.snd →
      FlightReachSafe (f.addPassenger pid prio).2
  | cancel {f} (pid : Int) : FlightReachSafe f → FlightReachSafe (f.cancelBooking pid).2

/-- A forest in which every tree is a binomial tree and min-heap ordered. -/
def GoodForest (l : List HNode) : Prop :=
  ∀ n ∈ l, HNode.isBinom n = true ∧ HNode.wellOrdered n = true

/-- The full heap invariant: root degrees strictly ascending, every tree a
heap-ordered binomial tree. -/
def HeapInv (h : BinomialHeap) : Prop :=
  h.roots.Pairwise (fun a b => a.degree < b.degree) ∧ GoodForest h.roots

/-! ## Basic structural lemmas -/

/-- Induction principle for `HNode` through the nested `List`. -/
theorem HNode.induct (P : HNode → Prop)
    (step : ∀ p i d cs, (∀ c ∈ cs, P c) → P (.mk p i d cs)) : ∀ n, P n
  | .mk p i d cs => step p i d cs (fun c hc => HNode.induct P step c)
termination_by n => sizeOf n
decreasing_by
  have h1 : sizeOf c < sizeOf cs := List.sizeOf_lt_of_mem hc
  simp only [HNode.mk.sizeOf_spec]
  omega

theorem elemsList_append (a b : List HNode) :
    elemsList (a ++ b) = elemsList a ++ elemsList b := by
  induction a with
  | nil => simp [elemsList]
  | cons c cs ih => simp [elemsList, ih]

theorem nodesList_append (a b : List HNode) :
    nodesList (a ++ b) = nodesList a ++ nodesList b := by
  induction a with
  | nil => simp [nodesList]
  | cons c cs ih => simp [nodesList, ih]

theorem elemsList_eq_map_of (l : List HNode)
    (h : ∀ c ∈ l, HNode.elems c = (HNode.nodes c).map (fun n => (n.priority, n.passengerId))) :
    elemsList l = (nodesList l).map (fun n => (n.priority, n.passengerId)) := by
  induction l with
  | nil => simp [elemsList, nodesList]
  | cons c cs ih =>
    simp only [elemsList, nodesList, List.map_append]
    rw [h c (by simp), ih (fun c hc => h c (by simp [hc]))]

/-- The stored pairs are exactly the `(priority, passengerId)` projections of
the nodes, in traversal order. -/
theorem elems_eq_map_nodes (n : HNode) :
    HNode.elems n = (HNode.nodes n).map (fun n => (n.priority, n.passengerId)) := by
  induction n using HNode.induct with
  | step p i d cs ih =>
    simp only [HNode.elems, HNode.nodes, List.map_cons, HNode.priority, HNode.passengerId]
    rw [elemsList_eq_map_of cs ih]
    rfl

theorem elemsList_length_eq (l : List HNode) :
    (elemsList l).length = (nodesList l).length := by
  rw [elemsList_eq_map_of l (fun c _ => elems_eq_map_nodes c), List.length_map]

theorem elemsList_ms (l : List HNode) :
    (elemsList l : Multiset (Int × Int)) =
      ((l : Multiset HNode).map (fun n => (HNode.elems n : Multiset (Int × Int)))).sum := by
  induction l with
  | nil => simp [elemsList]
  | cons c cs ih =>
    simp only [elemsList, Multiset.map_coe, List.map_cons, Multiset.sum_coe] at *
    rw [← Multiset.coe_add] at *
    simp [ih]

theorem elems_ne_nil (n : HNode) : HNode.elems n ≠ [] := by
  cases n with
  | mk p i d cs => simp [HNode.elems]

theorem nodes_ne_nil (n : HNode) : HNode.nodes n ≠ [] := by
  cases n with
  | mk p i d cs => simp [HNode.nodes]

theorem self_mem_elems (n : HNode) : (n.priority, n.passengerId) ∈ HNode.elems n := by
  cases n with
  | mk p i d cs => simp [HNode.elems]

theorem nodesList_eq_nil_iff (l : List HNode) : nodesList l = [] ↔ l = [] := by
  cases l with
  | nil => simp [nodesList]
  | cons c cs =>
    simp only [nodesList]
    constructor
    · intro h
      rcases List.append_eq_nil.mp h with ⟨h1, _⟩
      exact absurd h1 (nodes_ne_nil c)
    · intro h
      exact absurd h (by simp)

theorem getSize_eq_card (h : BinomialHeap) : h.getSize = Multiset.card (heapMS h) := by
  simp [BinomialHeap.getSize, heapMS, heapElems, elemsList_length_eq]

theorem getSize_eq_zero_iff (h : BinomialHeap) : h.getSize = 0 ↔ h.roots = [] := by
  simp [BinomialHeap.getSize, List.length_eq_zero, nodesList_eq_nil_iff]

/-! ## Heap-order and linking -/

theorem wellOrderedChildren_iff (p : Int) (cs : List HNode) :
    wellOrderedChildren p cs = true ↔
      ∀ c ∈ cs, p ≤ c.priority ∧ HNode.wellOrdered c = true := by
  induction cs with
  | nil => simp [wellOrderedChildren]
  | cons c cs ih => simp [wellOrderedChildren, ih, and_assoc]

theorem wellOrdered_mk_iff (p i : Int) (d : Nat) (cs : List HNode) :
    HNode.wellOrdered (.mk p i d cs) = true ↔
      ∀ c ∈ cs, p ≤ c.priority ∧ HNode.wellOrdered c = true := by
  rw [HNode.wellOrdered, wellOrderedChildren_iff]

/-- A heap-ordered tree's root priority bounds every stored priority. -/
theorem wellOrdered_le_elems (n : HNode) (hwo : HNode.wellOrdered n = true) :
    ∀ e ∈ HNode.elems n, n.priority ≤ e.1 := by
  induction n using HNode.induct with
  | step p i d cs ih =>
    rw [wellOrdered_mk_iff] at hwo
    intro e he
    rw [HNode.elems] at he
    rcases List.mem_cons.mp he with h | h
    · simp [h]
    · simp only [HNode.priority]
      clear he
      induction cs with
      | nil => simp [elemsList] at h
      | cons c cs ihl =>
        rw [elemsList, List.mem_append] at h
        rcases h with h | h
        · have h1 := (hwo c (by simp)).1
          have h2 := ih c (by simp) ((hwo c (by simp)).2) e h
          exact le_trans h1 h2
        · exact ihl (fun c hc => ih c (by simp [hc]))
            (fun c hc => hwo c (by simp [hc])) h

/-- A heap-ordered tree's root priority bounds every node's priority. -/
theorem wellOrdered_le_nodes (n : HNode) (hwo : HNode.wellOrdered n = true) :
    ∀ m ∈ HNode.nodes n, n.priority ≤ m.priority := by
  intro m hm
  have := wellOrdered_le_elems n hwo (m.priority, m.passengerId)
  rw [elems_eq_map_nodes n] at this
  exact this (List.mem_map_of_mem _ hm)

/-- Every node of a heap-ordered tree is itself heap-ordered. -/
theorem wellOrdered_nodes (n : HNode) (hwo : HNode.wellOrdered n = true) :
    ∀ m ∈ HNode.nodes n, HNode.wellOrdered m = true := by
  induction n using HNode.induct with
  | step p i d cs ih =>
    intro m hm
    rw [HNode.nodes] at hm
    rcases List.mem_cons.mp hm with h | h
    · rw [h]; exact hwo
    · rw [wellOrdered_mk_iff] at hwo
      clear hm
      induction cs with
      | nil => simp [nodesList] at h
      | cons c cs ihl =>
        rw [nodesList, List.mem_append] at h
        rcases h with h | h
        · exact ih c (by simp) ((hwo c (by simp)).2) m h
        · exact ihl (fun c hc => ih c (by simp [hc]))
            (fun c hc => hwo c (by simp [hc])) h

theorem elems_link (y z : HNode) :
    (HNode.elems (BinomialHeap.link y z) : Multiset (Int × Int)) =
      ↑(HNode.elems y) + ↑(HNode.elems z) := by
  cases z with
  | mk p i d cs =>
    simp only [BinomialHeap.link, HNode.elems, HNode.priority, HNode.passengerId,
      HNode.degree, HNode.children, elemsList]
    rw [← Multiset.cons_coe, ← Multiset.cons_coe, ← Multiset.coe_add,
      ← Multiset.singleton_add, ← Multiset.singleton_add]
    abel

/-! ## Minimum root selection -/

theorem findMinNode_eq_none_iff (l : List HNode) :
    BinomialHeap.findMinNode l = none ↔ l = [] := by
  cases l with
  | nil => simp [BinomialHeap.findMinNode]
  | cons n rest =>
    rw [BinomialHeap.findMinNode]
    cases BinomialHeap.findMinNode rest <;> simp

theorem removeMinRoot_eq_none_iff (l : List HNode) :
    BinomialHeap.removeMinRoot l = none ↔ l = [] := by
  cases l with
  | nil => simp [BinomialHeap.removeMinRoot]
  | cons n rest =>
    rw [BinomialHeap.removeMinRoot]
    cases h : BinomialHeap.removeMinRoot rest with
    | none => simp
    | some x =>
      obtain ⟨m, rest'⟩ := x
      simp only []
      constructor
      · intro hcontra
        exact absurd hcontra (by split <;> simp)
      · intro hcontra
        simp at hcontra

/-- `findMinNodeIterator` returns exactly the root that
`extractMin`'s `roots.erase(min_it)` removes. -/
theorem removeMinRoot_fst (l : List HNode) :
    (BinomialHeap.removeMinRoot l).map Prod.fst = BinomialHeap.findMinNode l := by
  induction l with
  | nil => simp [BinomialHeap.removeMinRoot, BinomialHeap.findMinNode]
  | cons n rest ih =>
    rw [BinomialHeap.removeMinRoot, BinomialHeap.findMinNode]
    cases h : BinomialHeap.removeMinRoot rest with
    | none =>
      rw [h] at ih
      rw [← ih]
      simp
    | some x =>
      obtain ⟨m, rest'⟩ := x
      rw [h] at ih
      rw [← ih]
      simp only [Option.map_some']
      split <;> simp

/-- The removed root is the first minimum: it is in the list, bounds every
root's priority from below, and the list is the removed root plus the rest
(as multisets). -/
theorem removeMinRoot_spec (l : List HNode) (m : HNode) (rest : List HNode)
    (h : BinomialHeap.removeMinRoot l = some (m, rest)) :
    (l : Multiset HNode) = m ::ₘ ↑rest ∧ (∀ r ∈ l, m.priority ≤ r.priority) ∧
      ∀ r ∈ rest, r ∈ l := by
  induction l generalizing m rest with
  | nil => simp [BinomialHeap.removeMinRoot] at h
  | cons n t ih =>
    rw [BinomialHeap.removeMinRoot] at h
    cases hrec : BinomialHeap.removeMinRoot t with
    | none =>
      rw [hrec] at h
      have ht : t = [] := (removeMinRoot_eq_none_iff t).mp hrec
      simp only [Option.some.injEq, Prod.mk.injEq] at h
      obtain ⟨h1, h2⟩ := h
      subst h1; subst h2; subst ht
      refine ⟨by simp, ?_, by simp⟩
      intro r hr
      rcases List.mem_cons.mp hr with hr | hr
      · rw [hr]
      · simp at hr
    | some x =>
      obtain ⟨m', rest'⟩ := x
      simp only [hrec] at h
      obtain ⟨hms, hle, hmem⟩ := ih m' rest' hrec
      split at h
      case isTrue hcond =>
        have hp : m'.priority < n.priority := hcond
        simp only [Option.some.injEq, Prod.mk.injEq] at h
        obtain ⟨h1, h2⟩ := h
        subst h1; subst h2
        refine ⟨?_, ?_, ?_⟩
        · rw [← Multiset.cons_coe, ← Multiset.cons_coe, hms, Multiset.cons_swap]
        · intro r hr
          rcases List.mem_cons.mp hr with hr | hr
          · rw [hr]; exact le_of_lt hp
          · exact hle r hr
        · intro r hr
          rcases List.mem_cons.mp hr with hr | hr
          · simp [hr]
          · simp [hmem r hr]
      case isFalse hcond =>
        have hp : ¬ m'.priority < n.priority := hcond
        simp only [Option.some.injEq, Prod.mk.injEq] at h
        obtain ⟨h1, h2⟩ := h
        subst h1; subst h2
        refine ⟨by simp, ?_, by intro r hr; simp [hr]⟩
        intro r hr
        rcases List.mem_cons.mp hr with hr | hr
        · rw [hr]
        · exact le_trans (not_lt.mp hp) (hle r hr)

/-! ## Root-list merging -/

theorem mergeRootLists_ms (a b : List HNode) :
    ((BinomialHeap.mergeRootLists a b : List HNode) : Multiset HNode) = ↑a + ↑b := by
  induction a generalizing b with
  | nil => simp [BinomialHeap.mergeRootLists]
  | cons n1 t1 ih =>
    induction b with
    | nil => simp [BinomialHeap.mergeRootLists]
    | cons n2 t2 ihb =>
      rw [BinomialHeap.mergeRootLists]
      by_cases hd : n1.degree ≤ n2.degree
      · rw [if_pos hd]
        simp only [← Multiset.cons_coe]
        rw [ih (n2 :: t2)]
        simp only [← Multiset.cons_coe, Multiset.cons_add]
      · rw [if_neg hd]
        simp only [← Multiset.cons_coe]
        rw [ihb]
        simp only [← Multiset.cons_coe, Multiset.cons_add, Multiset.add_cons]

theorem elemsList_congr (a b : List HNode) (h : (a : Multiset HNode) = ↑b) :
    (elemsList a : Multiset (Int × Int)) = ↑(elemsList b) := by
  rw [elemsList_ms, elemsList_ms, h]

theorem mergeRootLists_elems (a b : List HNode) :
    (elemsList (BinomialHeap.mergeRootLists a b) : Multiset (Int × Int)) =
      ↑(elemsList a) + ↑(elemsList b) := by
  rw [elemsList_ms, mergeRootLists_ms, Multiset.map_add, Multiset.sum_add,
    ← elemsList_ms, ← elemsList_ms]

theorem mem_mergeRootLists {a b : List HNode} {n : HNode}
    (h : n ∈ BinomialHeap.mergeRootLists a b) : n ∈ a ∨ n ∈ b := by
  have hms := mergeRootLists_ms a b
  have hm : n ∈ ((BinomialHeap.mergeRootLists a b : List HNode) : Multiset HNode) := by
    simpa using h
  rw [hms] at hm
  simpa using hm

theorem degree_link (y z : HNode) : (BinomialHeap.link y z).degree = z.degree + 1 := by
  cases z with
  | mk p i d cs => simp [BinomialHeap.link]

theorem priority_link (y z : HNode) : (BinomialHeap.link y z).priority = z.priority := by
  cases z with
  | mk p i d cs => simp [BinomialHeap.link]

/-! ## The degree table of consolidate -/

theorem tableElems_append (a b : List (Option HNode)) :
    tableElems (a ++ b) = tableElems a ++ tableElems b := by
  induction a with
  | nil => simp [tableElems]
  | cons o rest ih =>
    cases o with
    | none => simp [tableElems, ih]
    | some n => simp [tableElems, ih]

theorem tableElems_replicate (k : Nat) : tableElems (List.replicate k none) = [] := by
  induction k with
  | zero => simp [tableElems]
  | succ k ih => simp [List.replicate, tableElems, ih]

theorem TableDeg_replicate (k base : Nat) : TableDeg base (List.replicate k none) := by
  induction k generalizing base with
  | zero => simp [TableDeg]
  | succ k ih => exact ⟨by simp, ih (base + 1)⟩

theorem TableDeg_append (a b : List (Option HNode)) (base : Nat) (ha : TableDeg base a)
    (hb : TableDeg (base + a.length) b) : TableDeg base (a ++ b) := by
  induction a generalizing base with
  | nil => simpa using hb
  | cons o rest ih =>
    refine ⟨ha.1, ih (base + 1) ha.2 ?_⟩
    have : base + 1 + rest.length = base + (o :: rest).length := by simp; omega
    rw [this]
    exact hb

theorem TableAll_replicate (P : HNode → Prop) (k : Nat) :
    TableAll P (List.replicate k none) := by
  induction k with
  | zero => simp [TableAll]
  | succ k ih => exact ⟨by simp, ih⟩

theorem TableAll_append (P : HNode → Prop) (a b : List (Option HNode)) (ha : TableAll P a)
    (hb : TableAll P b) : TableAll P (a ++ b) := by
  induction a with
  | nil => simpa using hb
  | cons o rest ih => exact ⟨ha.1, ih ha.2⟩

theorem carryMerge_elems (t : List (Option HNode)) (cur : HNode) :
    (tableElems (BinomialHeap.carryMerge t cur) : Multiset (Int × Int)) =
      ↑(HNode.elems cur) + ↑(tableElems t) := by
  induction t generalizing cur with
  | nil => simp [BinomialHeap.carryMerge, tableElems]
  | cons o rest ih =>
    cases o with
    | none => simp [BinomialHeap.carryMerge, tableElems, Multiset.coe_add]
    | some other =>
      rw [BinomialHeap.carryMerge]
      split
      · rw [tableElems, ih, elems_link, tableElems, ← Multiset.coe_add]
        abel
      · rw [tableElems, ih, elems_link, tableElems, ← Multiset.coe_add]
        abel

theorem carryMerge_deg (t : List (Option HNode)) (cur : HNode) (base : Nat)
    (hd : cur.degree = base) (ht : TableDeg base t) :
    TableDeg base (BinomialHeap.carryMerge t cur) := by
  induction t generalizing cur base with
  | nil =>
    refine ⟨?_, trivial⟩
    intro n hn
    injection hn with hn
    rw [← hn, hd]
  | cons o rest ih =>
    cases o with
    | none =>
      refine ⟨?_, ht.2⟩
      intro n hn
      injection hn with hn
      rw [← hn, hd]
    | some other =>
      have hother : other.degree = base := ht.1 other rfl
      rw [BinomialHeap.carryMerge]
      split
      · exact ⟨by simp, ih (BinomialHeap.link cur other) (base + 1)
          (by rw [degree_link, hother]) ht.2⟩
      · exact ⟨by simp, ih (BinomialHeap.link other cur) (base + 1)
          (by rw [degree_link, hd]) ht.2⟩

theorem carryMerge_all (P : HNode → Prop)
    (hlink : ∀ y z, P y → P z → y.degree = z.degree → z.priority ≤ y.priority →
      P (BinomialHeap.link y z))
    (t : List (Option HNode)) (cur : HNode) (base : Nat) (hd : cur.degree = base)
    (ht : TableDeg base t) (hP : P cur) (hall : TableAll P t) :
    TableAll P (BinomialHeap.carryMerge t cur) := by
  induction t generalizing cur base with
  | nil =>
    refine ⟨?_, trivial⟩
    intro n hn
    injection hn with hn
    rw [← hn]; exact hP
  | cons o rest ih =>
    cases o with
    | none =>
      refine ⟨?_, hall.2⟩
      intro n hn
      injection hn with hn
      rw [← hn]; exact hP
    | some other =>
      have hother : other.degree = base := ht.1 other rfl
      have hPother : P other := hall.1 other rfl
      rw [BinomialHeap.carryMerge]
      split
      case isTrue hcond =>
        have hlt : other.priority < cur.priority := hcond
        exact ⟨by simp, ih (BinomialHeap.link cur other) (base + 1)
          (by rw [degree_link, hother])
          ht.2 (hlink cur other hP hPother (by rw [hd, hother]) (le_of_lt hlt)) hall.2⟩
      case isFalse hcond =>
        have hle : cur.priority ≤ other.priority := not_lt.mp hcond
        exact ⟨by simp, ih (BinomialHeap.link other cur) (base + 1)
          (by rw [degree_link, hd])
          ht.2 (hlink other cur hPother hP (by rw [hd, hother]) hle) hall.2⟩

/-- Inserting `cur` at slot `d` of a table of length ≥ `d` preserves the
degree invariant and any link-closed property of the stored trees. -/
theorem tableSplit_spec (P : HNode → Prop)
    (hlink : ∀ y z, P y → P z → y.degree = z.degree → z.priority ≤ y.priority →
      P (BinomialHeap.link y z)) :
    ∀ (d : Nat) (t : List (Option HNode)) (base : Nat) (cur : HNode), d ≤ t.length →
      cur.degree = base + d → TableDeg base t → TableAll P t → P cur →
      TableDeg base (t.take d ++ BinomialHeap.carryMerge (t.drop d) cur) ∧
        TableAll P (t.take d ++ BinomialHeap.carryMerge (t.drop d) cur) := by
  intro d
  induction d with
  | zero =>
    intro t base cur _ hdeg ht hall hP
    simp only [List.take_zero, List.drop_zero, List.nil_append]
    exact ⟨carryMerge_deg t cur base (by simpa using hdeg) ht,
      carryMerge_all P hlink t cur base (by simpa using hdeg) ht hP hall⟩
  | succ d ih =>
    intro t base cur hlen hdeg ht hall hP
    cases t with
    | nil => simp at hlen
    | cons o rest =>
      simp only [List.take_succ_cons, List.drop_succ_cons, List.cons_append]
      have hrec := ih rest (base + 1) cur (by simpa using hlen) (by omega) ht.2 hall.2 hP
      exact ⟨⟨ht.1, hrec.1⟩, ⟨hall.1, hrec.2⟩⟩

theorem tableInsert_spec (P : HNode → Prop)
    (hlink : ∀ y z, P y → P z → y.degree = z.degree → z.priority ≤ y.priority →
      P (BinomialHeap.link y z))
    (t : List (Option HNode)) (cur : HNode) (ht : TableDeg 0 t) (hall : TableAll P t)
    (hP : P cur) :
    TableDeg 0 (BinomialHeap.tableInsert t cur) ∧
      TableAll P (BinomialHeap.tableInsert t cur) := by
  rw [BinomialHeap.tableInsert]
  exact tableSplit_spec P hlink cur.degree (t ++ List.replicate (cur.degree - t.length) none)
    0 cur (by simp; omega) (by simp)
    (TableDeg_append t _ 0 ht (TableDeg_replicate _ _))
    (TableAll_append P t _ hall (TableAll_replicate P _)) hP

theorem TableAll_true (t : List (Option HNode)) : TableAll (fun _ => True) t := by
  induction t with
  | nil => trivial
  | cons o rest ih => exact ⟨fun _ _ => trivial, ih⟩

theorem tableInsert_deg (t : List (Option HNode)) (cur : HNode) (ht : TableDeg 0 t) :
    TableDeg 0 (BinomialHeap.tableInsert t cur) :=
  (tableInsert_spec (fun _ => True) (fun _ _ _ _ _ _ => trivial) t cur ht
    (TableAll_true t) trivial).1

theorem tableInsert_elems (t : List (Option HNode)) (cur : HNode) :
    (tableElems (BinomialHeap.tableInsert t cur) : Multiset (Int × Int)) =
      ↑(HNode.elems cur) + ↑(tableElems t) := by
  rw [BinomialHeap.tableInsert]
  have htot : (tableElems ((t ++ List.replicate (cur.degree - t.length) none).take cur.degree) :
      Multiset (Int × Int)) +
      ↑(tableElems ((t ++ List.replicate (cur.degree - t.length) none).drop cur.degree)) =
      ↑(tableElems t) := by
    rw [Multiset.coe_add, ← tableElems_append, List.take_append_drop, tableElems_append,
      tableElems_replicate, List.append_nil]
  rw [tableElems_append, ← Multiset.coe_add, carryMerge_elems, ← htot]
  abel

theorem foldl_tableInsert_spec (P : HNode → Prop)
    (hlink : ∀ y z, P y → P z → y.degree = z.degree → z.priority ≤ y.priority →
      P (BinomialHeap.link y z))
    (l : List HNode) :
    ∀ acc, TableDeg 0 acc → TableAll P acc → (∀ n ∈ l, P n) →
      TableDeg 0 (l.foldl BinomialHeap.tableInsert acc) ∧
        TableAll P (l.foldl BinomialHeap.tableInsert acc) := by
  induction l with
  | nil =>
    intro acc h1 h2 _
    exact ⟨h1, h2⟩
  | cons n rest ih =>
    intro acc h1 h2 hall
    rw [List.foldl_cons]
    have hstep := tableInsert_spec P hlink acc n h1 h2 (hall n (by simp))
    exact ih _ hstep.1 hstep.2 (fun c hc => hall c (by simp [hc]))

theorem foldl_tableInsert_deg (l : List HNode) (acc : List (Option HNode))
    (h : TableDeg 0 acc) : TableDeg 0 (l.foldl BinomialHeap.tableInsert acc) :=
  (foldl_tableInsert_spec (fun _ => True) (fun _ _ _ _ _ _ => trivial) l acc h
    (TableAll_true acc) (fun _ _ => trivial)).1

theorem foldl_tableInsert_elems (l : List HNode) :
    ∀ acc, (tableElems (l.foldl BinomialHeap.tableInsert acc) : Multiset (Int × Int)) =
      ↑(elemsList l) + ↑(tableElems acc) := by
  induction l with
  | nil =>
    intro acc
    simp [elemsList]
  | cons n rest ih =>
    intro acc
    rw [List.foldl_cons, ih, tableInsert_elems, elemsList]
    simp only [← Multiset.coe_add]
    abel

theorem tableElems_filterMap (t : List (Option HNode)) :
    elemsList (t.filterMap id) = tableElems t := by
  induction t with
  | nil => simp [tableElems, elemsList]
  | cons o rest ih =>
    cases o with
    | none => simpa [tableElems] using ih
    | some n => simp [tableElems, elemsList, ih]

theorem TableDeg_filterMap (t : List (Option HNode)) :
    ∀ base, TableDeg base t →
      (t.filterMap id).Pairwise (fun a b => a.degree < b.degree) ∧
        ∀ n ∈ t.filterMap id, base ≤ n.degree := by
  induction t with
  | nil =>
    intro base _
    simp
  | cons o rest ih =>
    intro base ht
    obtain ⟨hpw, hbound⟩ := ih (base + 1) ht.2
    cases o with
    | none =>
      refine ⟨by simpa using hpw, ?_⟩
      intro n hn
      have := hbound n (by simpa using hn)
      omega
    | some m =>
      have hm : m.degree = base := ht.1 m rfl
      refine ⟨?_, ?_⟩
      · rw [List.filterMap_cons_some (by rfl)]
        rw [List.pairwise_cons]
        refine ⟨?_, hpw⟩
        intro n hn
        have := hbound n hn
        omega
      · intro n hn
        rw [List.filterMap_cons_some (by rfl)] at hn
        rcases List.mem_cons.mp hn with hn | hn
        · subst hn
          omega
        · have := hbound n hn
          omega

theorem TableAll_filterMap (P : HNode → Prop) (t : List (Option HNode))
    (h : TableAll P t) : ∀ n ∈ t.filterMap id, P n := by
  induction t with
  | nil => simp
  | cons o rest ih =>
    cases o with
    | none => simpa using ih h.2
    | some m =>
      intro n hn
      rw [List.filterMap_cons_some (by rfl)] at hn
      rcases List.mem_cons.mp hn with hn | hn
      · rw [hn]; exact h.1 m rfl
      · exact ih h.2 n hn

/-! ## The final sort of consolidate -/

theorem insertByDegree_append (n : HNode) (acc : List HNode)
    (h : ∀ m ∈ acc, m.degree ≤ n.degree) :
    BinomialHeap.insertByDegree n acc = acc ++ [n] := by
  induction acc with
  | nil => simp [BinomialHeap.insertByDegree]
  | cons m ms ih =>
    rw [BinomialHeap.insertByDegree, if_pos (h m (by simp)), ih (fun x hx => h x (by simp [hx]))]
    simp

theorem sortByDegree_aux (l : List HNode) :
    ∀ acc, (acc ++ l).Pairwise (fun a b => a.degree ≤ b.degree) →
      l.foldl (fun acc n => BinomialHeap.insertByDegree n acc) acc = acc ++ l := by
  induction l with
  | nil =>
    intro acc _
    simp
  | cons n rest ih =>
    intro acc hpw
    rw [List.foldl_cons, insertByDegree_append n acc]
    · have := ih (acc ++ [n]) (by simpa using hpw)
      rw [this]
      simp
    · intro m hm
      have := (List.pairwise_append.mp hpw).2.2 m hm n (by simp)
      exact this

/-- The final sort of `consolidate` is the identity whenever the list is
already sorted by degree — which the degree table guarantees. -/
theorem sortByDegree_sorted_id (l : List HNode)
    (h : l.Pairwise (fun a b => a.degree ≤ b.degree)) :
    BinomialHeap.sortByDegree l = l := by
  rw [BinomialHeap.sortByDegree, sortByDegree_aux l [] (by simpa using h)]
  simp

/-! ## consolidate -/

theorem consolidate_elems (l : List HNode) :
    (elemsList (BinomialHeap.consolidate l) : Multiset (Int × Int)) = ↑(elemsList l) := by
  rw [BinomialHeap.consolidate]
  by_cases hlen : l.length ≤ 1
  · rw [if_pos hlen]
  · rw [if_neg hlen]
    have hdeg := foldl_tableInsert_deg l [] trivial
    have hpw := (TableDeg_filterMap _ 0 hdeg).1
    rw [sortByDegree_sorted_id _ (hpw.imp (fun hab => le_of_lt hab))]
    rw [tableElems_filterMap, foldl_tableInsert_elems l [], tableElems]
    simp

theorem consolidate_pairwise (l : List HNode) :
    (BinomialHeap.consolidate l).Pairwise (fun a b => a.degree < b.degree) := by
  rw [BinomialHeap.consolidate]
  by_cases hlen : l.length ≤ 1
  · rw [if_pos hlen]
    cases l with
    | nil => simp
    | cons a rest =>
      cases rest with
      | nil => simp
      | cons b rest' => simp at hlen
  · rw [if_neg hlen]
    have hdeg := foldl_tableInsert_deg l [] trivial
    have hpw := (TableDeg_filterMap _ 0 hdeg).1
    rw [sortByDegree_sorted_id _ (hpw.imp (fun hab => le_of_lt hab))]
    exact hpw

theorem consolidate_all (P : HNode → Prop)
    (hlink : ∀ y z, P y → P z → y.degree = z.degree → z.priority ≤ y.priority →
      P (BinomialHeap.link y z))
    (l : List HNode) (hall : ∀ n ∈ l, P n) :
    ∀ n ∈ BinomialHeap.consolidate l, P n := by
  rw [BinomialHeap.consolidate]
  by_cases hlen : l.length ≤ 1
  · rw [if_pos hlen]
    exact hall
  · rw [if_neg hlen]
    have hdeg := foldl_tableInsert_deg l [] trivial
    have hpw := (TableDeg_filterMap _ 0 hdeg).1
    rw [sortByDegree_sorted_id _ (hpw.imp (fun hab => le_of_lt hab))]
    have hspec := foldl_tableInsert_spec P hlink l [] trivial trivial hall
    exact TableAll_filterMap P _ hspec.2

theorem isBinomChildren_mem (d : Nat) (cs : List HNode) (h : isBinomChildren d cs = true) :
    ∀ c ∈ cs, HNode.isBinom c = true := by
  induction cs generalizing d with
  | nil => simp
  | cons c cs ih =>
    rw [isBinomChildren, Bool.and_eq_true, Bool.and_eq_true] at h
    intro x hx
    rcases List.mem_cons.mp hx with hx | hx
    · rw [hx]; exact h.1.2
    · exact ih (d - 1) h.2 x hx

theorem isBinom_mk_iff (p i : Int) (d : Nat) (cs : List HNode) :
    HNode.isBinom (.mk p i d cs) = true ↔ cs.length = d ∧ isBinomChildren d cs = true := by
  rw [HNode.isBinom, Bool.and_eq_true, beq_iff_eq]

/-- The children of a binomial node of degree `d` have degrees
`d-1, d-2, …, 0` in stored order. -/
theorem binomChildren_map (cs : List HNode) : ∀ d, cs.length = d → isBinomChildren d cs = true →
    cs.map HNode.degree = (List.range d).reverse := by
  induction cs with
  | nil =>
    intro d hd _
    subst hd
    simp
  | cons c cs ih =>
    intro d hlen hbc
    rw [isBinomChildren, Bool.and_eq_true, Bool.and_eq_true, beq_iff_eq] at hbc
    have hd : d = cs.length + 1 := by simpa using hlen.symm
    subst hd
    simp only [List.map_cons, Nat.add_sub_cancel] at *
    rw [hbc.1.1, ih cs.length rfl hbc.2, List.range_succ, List.reverse_append]
    simp

/-- Lift a property from each tree of a forest to every node of the
forest. -/
theorem nodesList_pred {P : HNode → Prop} (l : List HNode)
    (hrec : ∀ c ∈ l, ∀ m ∈ HNode.nodes c, P m) :
    ∀ m ∈ nodesList l, P m := by
  induction l with
  | nil => simp [nodesList]
  | cons c cs ih =>
    intro m hm
    rw [nodesList, List.mem_append] at hm
    rcases hm with hm | hm
    · exact hrec c (by simp) m hm
    · exact ih (fun c hc => hrec c (by simp [hc])) m hm

/-- Every node of a binomial tree is itself a binomial tree. -/
theorem isBinom_nodes (n : HNode) (hb : HNode.isBinom n = true) :
    ∀ m ∈ HNode.nodes n, HNode.isBinom m = true := by
  induction n using HNode.induct with
  | step p i d cs ih =>
    intro m hm
    rw [HNode.nodes] at hm
    rcases List.mem_cons.mp hm with h | h
    · rw [h]; exact hb
    · rw [isBinom_mk_iff] at hb
      have hmem := isBinomChildren_mem d cs hb.2
      exact nodesList_pred cs (fun c hc => ih c hc (hmem c hc)) m h

theorem nodesList_length_sum (l : List HNode) :
    (nodesList l).length = (l.map (fun c => (HNode.nodes c).length)).sum := by
  induction l with
  | nil => simp [nodesList]
  | cons c cs ih => simp [nodesList, ih]

theorem binomChildren_sum (cs : List HNode) : ∀ d, cs.length = d → isBinomChildren d cs = true →
    (∀ c ∈ cs, (HNode.nodes c).length = 2 ^ c.degree) →
    (cs.map (fun c => (HNode.nodes c).length)).sum = 2 ^ d - 1 := by
  induction cs with
  | nil =>
    intro d hd _ _
    subst hd
    simp
  | cons c cs ih =>
    intro d hlen hbc hall
    rw [isBinomChildren, Bool.and_eq_true, Bool.and_eq_true, beq_iff_eq] at hbc
    have hd : d = cs.length + 1 := by simpa using hlen.symm
    have hrest := ih (d - 1) (by omega) hbc.2 (fun c hc => hall c (by simp [hc]))
    simp only [List.map_cons, List.sum_cons]
    rw [hall c (by simp), hbc.1.1, hrest]
    have h1 : 1 ≤ 2 ^ (d - 1) := Nat.one_le_two_pow
    have h2 : 2 ^ d = 2 * 2 ^ (d - 1) := by
      rw [hd]
      simp [pow_succ]
      ring
    omega

/-- A binomial tree of degree `d` has exactly `2 ^ d` nodes. -/
theorem isBinom_card (n : HNode) (hb : HNode.isBinom n = true) :
    (HNode.nodes n).length = 2 ^ n.degree := by
  induction n using HNode.induct with
  | step p i d cs ih =>
    rw [isBinom_mk_iff] at hb
    have hsum := binomChildren_sum cs d hb.1 hb.2
      (fun c hc => ih c hc (isBinomChildren_mem d cs hb.2 c hc))
    rw [HNode.nodes]
    simp only [List.length_cons, HNode.degree]
    rw [nodesList_length_sum, hsum]
    have h1 : 1 ≤ 2 ^ d := Nat.one_le_two_pow
    omega

theorem wellOrdered_link (y z : HNode) (hy : HNode.wellOrdered y = true)
    (hz : HNode.wellOrdered z = true) (hle : z.priority ≤ y.priority) :
    HNode.wellOrdered (BinomialHeap.link y z) = true := by
  cases z with
  | mk p i d cs =>
    rw [wellOrdered_mk_iff] at hz
    simp only [BinomialHeap.link, HNode.priority, HNode.passengerId, HNode.degree,
      HNode.children]
    rw [wellOrdered_mk_iff]
    intro c hc
    rcases List.mem_cons.mp hc with h | h
    · subst h
      exact ⟨hle, hy⟩
    · exact hz c h

/-! ## Heap operations: insert and extractMin -/

theorem isBinom_link (y z : HNode) (hy : HNode.isBinom y = true)
    (hz : HNode.isBinom z = true) (hd : y.degree = z.degree) :
    HNode.isBinom (BinomialHeap.link y z) = true := by
  cases z with
  | mk p i d cs =>
    rw [isBinom_mk_iff] at hz
    simp only [BinomialHeap.link, HNode.degree, HNode.children, HNode.priority,
      HNode.passengerId]
    rw [isBinom_mk_iff]
    refine ⟨by simp [hz.1], ?_⟩
    rw [isBinomChildren]
    simp only [Nat.add_sub_cancel]
    rw [Bool.and_eq_true, Bool.and_eq_true, beq_iff_eq]
    exact ⟨⟨by simpa using hd, hy⟩, hz.2⟩

/-- The goodness predicate on trees is closed under `link` as `consolidate`
performs it (winner priority ≤ loser priority, equal degrees). -/
theorem goodNode_link : ∀ y z : HNode,
    (HNode.isBinom y = true ∧ HNode.wellOrdered y = true) →
    (HNode.isBinom z = true ∧ HNode.wellOrdered z = true) →
    y.degree = z.degree → z.priority ≤ y.priority →
    HNode.isBinom (BinomialHeap.link y z) = true ∧
      HNode.wellOrdered (BinomialHeap.link y z) = true :=
  fun y z hy hz hd hp =>
    ⟨isBinom_link y z hy.1 hz.1 hd, wellOrdered_link y z hy.2 hz.2 hp⟩

theorem consolidate_good (l : List HNode) (hall : GoodForest l) :
    GoodForest (BinomialHeap.consolidate l) :=
  consolidate_all (fun n => HNode.isBinom n = true ∧ HNode.wellOrdered n = true)
    goodNode_link l hall

theorem elems_expand (m : HNode) :
    HNode.elems m = (m.priority, m.passengerId) :: elemsList m.children := by
  cases m with
  | mk p i d cs => rfl

theorem mem_elemsList (e : Int × Int) (l : List HNode) :
    e ∈ elemsList l ↔ ∃ r ∈ l, e ∈ HNode.elems r := by
  induction l with
  | nil => simp [elemsList]
  | cons c cs ih =>
    rw [elemsList, List.mem_append, ih]
    constructor
    · intro h
      rcases h with h | ⟨r, hr, he⟩
      · exact ⟨c, by simp, h⟩
      · exact ⟨r, by simp [hr], he⟩
    · intro ⟨r, hr, he⟩
      rcases List.mem_cons.mp hr with hr | hr
      · left; rw [← hr]; exact he
      · right; exact ⟨r, hr, he⟩

theorem elemsList_reverse_ms (l : List HNode) :
    (elemsList l.reverse : Multiset (Int × Int)) = ↑(elemsList l) := by
  apply elemsList_congr
  simp

theorem insert_ms (h : BinomialHeap) (p pid : Int) :
    heapMS (h.insert p pid) = (p, pid) ::ₘ heapMS h := by
  rw [heapMS, heapElems, heapMS, heapElems, BinomialHeap.insert]
  show (elemsList (BinomialHeap.consolidate _) : Multiset (Int × Int)) = _
  rw [consolidate_elems, mergeRootLists_elems]
  simp only [elemsList, HNode.elems, List.append_nil]
  rw [show (([(p, pid)] : List (Int × Int)) : Multiset (Int × Int)) = (p, pid) ::ₘ 0 from rfl,
    Multiset.add_cons, add_zero]

theorem insert_inv (h : BinomialHeap) (p pid : Int) (hg : GoodForest h.roots) :
    HeapInv (h.insert p pid) := by
  constructor
  · show (BinomialHeap.consolidate _).Pairwise _
    exact consolidate_pairwise _
  · show GoodForest (BinomialHeap.consolidate _)
    apply consolidate_good
    intro n hn
    rcases mem_mergeRootLists hn with hn | hn
    · exact hg n hn
    · have : n = HNode.mk p pid 0 [] := by simpa using hn
      rw [this]
      exact ⟨rfl, rfl⟩

theorem insert_getSize (h : BinomialHeap) (p pid : Int) :
    (h.insert p pid).getSize = h.getSize + 1 := by
  rw [getSize_eq_card, getSize_eq_card, insert_ms]
  simp

theorem extractMin_cases (h : BinomialHeap) (pid : Int) (h' : BinomialHeap)
    (hx : h.extractMin = .ok (pid, h')) :
    ∃ m rest, BinomialHeap.removeMinRoot h.roots = some (m, rest) ∧ pid = m.passengerId ∧
      h' = ⟨BinomialHeap.consolidate
        (BinomialHeap.mergeRootLists rest m.children.reverse)⟩ := by
  rw [BinomialHeap.extractMin] at hx
  cases hr : BinomialHeap.removeMinRoot h.roots with
  | none =>
    rw [hr] at hx
    simp at hx
  | some x =>
    obtain ⟨m, rest⟩ := x
    rw [hr] at hx
    simp only [Except.ok.injEq, Prod.mk.injEq] at hx
    exact ⟨m, rest, rfl, hx.1.symm, hx.2.symm⟩

theorem extract_ms (h : BinomialHeap) (pid : Int) (h' : BinomialHeap)
    (hx : h.extractMin = .ok (pid, h')) :
    ∃ p, heapMS h = (p, pid) ::ₘ heapMS h' ∧ h.findMinPriority = .ok p ∧
      h.findMinPassengerId = .ok pid ∧
      (GoodForest h.roots → ∀ e ∈ heapElems h, p ≤ e.1) := by
  obtain ⟨m, rest, hr, hpid, hh'⟩ := extractMin_cases h pid h' hx
  obtain ⟨hms, hle, hmem⟩ := removeMinRoot_spec _ _ _ hr
  have hfind : BinomialHeap.findMinNode h.roots = some m := by
    have := removeMinRoot_fst h.roots
    rw [hr] at this
    simpa using this.symm
  refine ⟨m.priority, ?_, ?_, ?_, ?_⟩
  · rw [heapMS, heapElems, heapMS, heapElems, hh']
    show (elemsList h.roots : Multiset (Int × Int)) =
      _ ::ₘ ↑(elemsList (BinomialHeap.consolidate _))
    rw [consolidate_elems, mergeRootLists_elems, elemsList_reverse_ms]
    rw [elemsList_ms, hms, Multiset.map_cons, Multiset.sum_cons, ← elemsList_ms]
    rw [elems_expand m, ← hpid, ← Multiset.cons_coe, Multiset.cons_add]
    rw [add_comm]
  · rw [BinomialHeap.findMinPriority, hfind]
  · rw [BinomialHeap.findMinPassengerId, hfind, hpid]
  · intro hg e he
    rw [heapElems, mem_elemsList] at he
    obtain ⟨r, hrmem, her⟩ := he
    exact le_trans (hle r hrmem) (wellOrdered_le_elems r (hg r hrmem).2 e her)

theorem children_good (m : HNode) (hb : HNode.isBinom m = true)
    (hw : HNode.wellOrdered m = true) : GoodForest m.children.reverse := by
  intro c hc
  rw [List.mem_reverse] at hc
  cases m with
  | mk p i d cs =>
    rw [isBinom_mk_iff] at hb
    rw [wellOrdered_mk_iff] at hw
    simp only [HNode.children] at hc
    exact ⟨isBinomChildren_mem d cs hb.2 c hc, (hw c hc).2⟩

theorem extract_inv (h : BinomialHeap) (pid : Int) (h' : BinomialHeap)
    (hx : h.extractMin = .ok (pid, h')) (hg : GoodForest h.roots) : HeapInv h' := by
  obtain ⟨m, rest, hr, hpid, hh'⟩ := extractMin_cases h pid h' hx
  obtain ⟨hms, hle, hmem⟩ := removeMinRoot_spec _ _ _ hr
  have hmroot : m ∈ h.roots := by
    have : m ∈ (h.roots : Multiset HNode) := by rw [hms]; simp
    simpa using this
  constructor
  · rw [hh']
    exact consolidate_pairwise _
  · rw [hh']
    show GoodForest (BinomialHeap.consolidate _)
    apply consolidate_good
    intro n hn
    rcases mem_mergeRootLists hn with hn | hn
    · exact hg n (hmem n hn)
    · exact children_good m (hg m hmroot).1 (hg m hmroot).2 n hn

theorem extract_getSize (h : BinomialHeap) (pid : Int) (h' : BinomialHeap)
    (hx : h.extractMin = .ok (pid, h')) : h.getSize = h'.getSize + 1 := by
  obtain ⟨p, hms, _, _, _⟩ := extract_ms h pid h' hx
  rw [getSize_eq_card, getSize_eq_card, hms]
  simp

/-! ## Draining the heap -/

theorem drainLoop_master : ∀ (fuel : Nat) (h : BinomialHeap), GoodForest h.roots →
    h.getSize ≤ fuel →
    ((BinomialHeap.drainLoop fuel h).1 : Multiset (Int × Int)) = heapMS h ∧
      (BinomialHeap.drainLoop fuel h).1.Pairwise (fun a b => a.1 ≤ b.1) ∧
      (BinomialHeap.drainLoop fuel h).2.roots = [] := by
  intro fuel
  induction fuel with
  | zero =>
    intro h hg hsz
    have hroots : h.roots = [] := (getSize_eq_zero_iff h).mp (Nat.le_zero.mp hsz)
    rw [BinomialHeap.drainLoop]
    refine ⟨?_, by simp, hroots⟩
    rw [heapMS, heapElems, hroots]
    simp [elemsList]
  | succ fuel ih =>
    intro h hg hsz
    by_cases hempty : h.isEmpty
    · have hroots : h.roots = [] := by
        simpa [BinomialHeap.isEmpty, List.isEmpty_iff] using hempty
      rw [BinomialHeap.drainLoop, if_pos hempty]
      refine ⟨?_, by simp, hroots⟩
      rw [heapMS, heapElems, hroots]
      simp [elemsList]
    · have hroots : h.roots ≠ [] := by
        simpa [BinomialHeap.isEmpty, List.isEmpty_iff] using hempty
      cases hr : BinomialHeap.removeMinRoot h.roots with
      | none => exact absurd ((removeMinRoot_eq_none_iff h.roots).mp hr) hroots
      | some x =>
        obtain ⟨m, rest⟩ := x
        have hx : h.extractMin = .ok (m.passengerId,
            ⟨BinomialHeap.consolidate
              (BinomialHeap.mergeRootLists rest m.children.reverse)⟩) := by
          rw [BinomialHeap.extractMin, hr]
        obtain ⟨p, hms, hfp, hfpid, hbound⟩ := extract_ms h m.passengerId _ hx
        have hinv' := extract_inv h m.passengerId _ hx hg
        have hszstep := extract_getSize h m.passengerId _ hx
        have hstep : BinomialHeap.drainLoop (fuel + 1) h =
            ((p, m.passengerId) ::
                (BinomialHeap.drainLoop fuel
                  ⟨BinomialHeap.consolidate
                    (BinomialHeap.mergeRootLists rest m.children.reverse)⟩).1,
              (BinomialHeap.drainLoop fuel
                ⟨BinomialHeap.consolidate
                  (BinomialHeap.mergeRootLists rest m.children.reverse)⟩).2) := by
          rw [BinomialHeap.drainLoop, if_neg hempty, hfp, hx]
        obtain ⟨ihms, ihpw, ihroots⟩ := ih
          ⟨BinomialHeap.consolidate (BinomialHeap.mergeRootLists rest m.children.reverse)⟩
          hinv'.2 (by omega)
        rw [hstep]
        refine ⟨?_, ?_, ihroots⟩
        · rw [← Multiset.cons_coe, ihms, hms]
        · rw [List.pairwise_cons]
          refine ⟨?_, ihpw⟩
          intro e he
          have he' : e ∈ heapElems h := by
            have h1 : e ∈ ((BinomialHeap.drainLoop fuel
                ⟨BinomialHeap.consolidate
                  (BinomialHeap.mergeRootLists rest m.children.reverse)⟩).1 :
                Multiset (Int × Int)) := by simpa using he
            rw [ihms] at h1
            have h2 : e ∈ heapMS h := by
              rw [hms]
              exact Multiset.mem_cons_of_mem h1
            simpa [heapMS] using h2
          exact hbound hg e he'

theorem insertAll_cons (h : BinomialHeap) (op : Int × Int) (rest : List (Int × Int)) :
    insertAll h (op :: rest) = insertAll (h.insert op.1 op.2) rest := rfl

theorem GoodForest_nil : GoodForest ([] : List HNode) := by
  intro n hn
  simp at hn

theorem insertAll_good (ops : List (Int × Int)) :
    ∀ h, GoodForest h.roots → GoodForest (insertAll h ops).roots := by
  induction ops with
  | nil =>
    intro h hg
    exact hg
  | cons op rest ih =>
    intro h hg
    rw [insertAll_cons]
    exact ih _ (insert_inv h op.1 op.2 hg).2

/-- Every state reachable by insert/extractMin sequences satisfies the full
heap invariant, and its size is the insert count minus the extract count. -/
theorem heapTrace_master {h : BinomialHeap} {n m : Nat} (ht : HeapTrace h n m) :
    HeapInv h ∧ h.getSize = n - m ∧ m ≤ n := by
  induction ht with
  | empty =>
    refine ⟨⟨by simp, GoodForest_nil⟩, ?_, le_rfl⟩
    simp [BinomialHeap.getSize, nodesList]
  | insert p pid ht ih =>
    obtain ⟨hinv, hsz, hmn⟩ := ih
    refine ⟨insert_inv _ p pid hinv.2, ?_, by omega⟩
    rw [insert_getSize, hsz]
    omega
  | extract ht hx ih =>
    obtain ⟨hinv, hsz, hmn⟩ := ih
    have hstep := extract_getSize _ _ _ hx
    refine ⟨extract_inv _ _ _ hx hinv.2, by omega, by omega⟩

/-! ## Claims C1 – C5 -/

/-- C1: for every heap built by any sequence of `insert` calls,
`getWaitlistOrdered_destructive` (drainOrdered) returns a sequence of
(priority, passengerId) pairs that is non-decreasing in priority, whose
length equals the `getSize()` value immediately before the call, and the
heap is empty (`isEmpty() = true`) afterward. -/
theorem C1_drain_ordered (ops : List (Int × Int)) :
    (insertAll ⟨[]⟩ ops).getWaitlistOrdered_destructive.1.Pairwise
        (fun a b => a.1 ≤ b.1) ∧
      (insertAll ⟨[]⟩ ops).getWaitlistOrdered_destructive.1.length =
        (insertAll ⟨[]⟩ ops).getSize ∧
      (insertAll ⟨[]⟩ ops).getWaitlistOrdered_destructive.2.isEmpty = true := by
  have hg : GoodForest (insertAll ⟨[]⟩ ops).roots :=
    insertAll_good ops ⟨[]⟩ GoodForest_nil
  obtain ⟨hms, hpw, hroots⟩ :=
    drainLoop_master (insertAll ⟨[]⟩ ops).getSize (insertAll ⟨[]⟩ ops) hg le_rfl
  rw [BinomialHeap.getWaitlistOrdered_destructive]
  refine ⟨hpw, ?_, ?_⟩
  · have hcard := congrArg Multiset.card hms
    simp only [Multiset.coe_card] at hcard
    rw [hcard]
    exact (getSize_eq_card _).symm
  · rw [BinomialHeap.isEmpty, hroots]
    rfl

/-- C2: in every heap state reachable from the empty heap by insert and
(successful) extractMin operations, every tree is min-heap ordered: each
node's priority is ≤ the priority of every one of its descendants. -/
theorem C2_heap_order (h : BinomialHeap) (hr : HeapReach h) :
    ∀ t ∈ h.roots, ∀ n ∈ HNode.nodes t, ∀ c ∈ n.children, ∀ m ∈ HNode.nodes c,
      n.priority ≤ m.priority := by
  obtain ⟨N, M, ht⟩ := hr
  have hgood := (heapTrace_master ht).1.2
  intro t htmem n hn c hc m hm
  have hwo : HNode.wellOrdered n = true := wellOrdered_nodes t (hgood t htmem).2 n hn
  cases n with
  | mk p i d cs =>
    rw [wellOrdered_mk_iff] at hwo
    simp only [HNode.children] at hc
    have h1 := (hwo c hc).1
    have h2 := wellOrdered_le_nodes c (hwo c hc).2 m hm
    simp only [HNode.priority]
    exact le_trans h1 h2

/-- C2 witness: the theorem applied to a concrete reachable heap state
(inserting priorities 5 then 3 links the 5-node under the 3-node), at the
root and its single child. -/
theorem C2_heap_order_witness :
    (HNode.mk 3 2 1 [HNode.mk 5 1 0 []]).priority ≤ (HNode.mk 5 1 0 []).priority :=
  C2_heap_order _ ⟨2, 0, HeapTrace.insert 3 2 (HeapTrace.insert 5 1 HeapTrace.empty)⟩
    (HNode.mk 3 2 1 [HNode.mk 5 1 0 []])
    (by simp [BinomialHeap.insert, BinomialHeap.mergeRootLists, BinomialHeap.consolidate,
      BinomialHeap.tableInsert, BinomialHeap.carryMerge, BinomialHeap.link,
      BinomialHeap.sortByDegree, BinomialHeap.insertByDegree])
    (HNode.mk 3 2 1 [HNode.mk 5 1 0 []]) (by simp [HNode.nodes])
    (HNode.mk 5 1 0 []) (by simp)
    (HNode.mk 5 1 0 []) (by simp [HNode.nodes])

/-- C3: after every insert or extractMin (i.e. in every reachable state) the
root list has pairwise-distinct degrees sorted ascending, and every node of
degree `d` has exactly `d` children whose stored degrees are
`d-1, d-2, …, 0` (so as a set exactly `{0, …, d-1}`), and each root of
degree `d` roots a binomial tree of exactly `2 ^ d` nodes. -/
theorem C3_binomial_structure (h : BinomialHeap) (hr : HeapReach h) :
    h.roots.Pairwise (fun a b => a.degree < b.degree) ∧
      ∀ t ∈ h.roots,
        (∀ n ∈ HNode.nodes t, n.children.length = n.degree ∧
          n.children.map HNode.degree = (List.range n.degree).reverse) ∧
        (HNode.nodes t).length = 2 ^ t.degree := by
  obtain ⟨N, M, ht⟩ := hr
  have hinv := (heapTrace_master ht).1
  refine ⟨hinv.1, ?_⟩
  intro t htm
  have hb := (hinv.2 t htm).1
  refine ⟨?_, isBinom_card t hb⟩
  intro n hn
  have hbn := isBinom_nodes t hb n hn
  cases n with
  | mk p i d cs =>
    rw [isBinom_mk_iff] at hbn
    simp only [HNode.children, HNode.degree]
    exact ⟨hbn.1, binomChildren_map cs d hbn.1 hbn.2⟩

/-- C3 witness: the theorem applied to a concrete reachable heap state
(three inserts: roots of degrees 0 and 1), instantiated at the degree-1
root. -/
theorem C3_binomial_structure_witness :
    (((⟨[]⟩ : BinomialHeap).insert 5 1 |>.insert 3 2 |>.insert 4 3).roots.Pairwise
        (fun a b => a.degree < b.degree)) ∧
      (HNode.nodes (HNode.mk 3 2 1 [HNode.mk 5 1 0 []])).length =
        2 ^ (HNode.mk 3 2 1 [HNode.mk 5 1 0 []]).degree :=
  ⟨(C3_binomial_structure _ ⟨3, 0, HeapTrace.insert 4 3 (HeapTrace.insert 3 2
      (HeapTrace.insert 5 1 HeapTrace.empty))⟩).1,
    ((C3_binomial_structure _ ⟨3, 0, HeapTrace.insert 4 3 (HeapTrace.insert 3 2
        (HeapTrace.insert 5 1 HeapTrace.empty))⟩).2
      (HNode.mk 3 2 1 [HNode.mk 5 1 0 []])
      (by simp [BinomialHeap.insert, BinomialHeap.mergeRootLists, BinomialHeap.consolidate,
        BinomialHeap.tableInsert, BinomialHeap.carryMerge, BinomialHeap.link,
        BinomialHeap.sortByDegree, BinomialHeap.insertByDegree])).2⟩

/-- C4: starting from the empty heap, after any interleaving of N inserts
and M (successful, hence never applied to an empty heap) extractMins,
`getSize()` returns exactly N − M (and M ≤ N). -/
theorem C4_size_conservation (h : BinomialHeap) (n m : Nat) (ht : HeapTrace h n m) :
    h.getSize = n - m ∧ m ≤ n :=
  ⟨(heapTrace_master ht).2.1, (heapTrace_master ht).2.2⟩

/-- C5: `findMinPriority`, `findMinPassengerId` and `extractMin` fail with
the empty-heap error exactly when the heap has no roots (`isEmpty`), and a
failed `extractMin` leaves the heap unchanged (the C++ throws before any
mutation; `findMin*` are `const` and cannot mutate at all). -/
theorem C5_empty_heap_errors (h : BinomialHeap) :
    (h.isEmpty = true ↔ h.roots = []) ∧
      ((∃ e, h.findMinPriority = .error e) ↔ h.isEmpty = true) ∧
      ((∃ e, h.findMinPassengerId = .error e) ↔ h.isEmpty = true) ∧
      ((∃ e, h.extractMin = .error e) ↔ h.isEmpty = true) ∧
      (h.isEmpty = true → h.extractMinState = h) := by
  have hEmpty : h.isEmpty = true ↔ h.roots = [] := by
    rw [BinomialHeap.isEmpty, List.isEmpty_iff]
  refine ⟨hEmpty, ?_, ?_, ?_, ?_⟩
  · rw [BinomialHeap.findMinPriority, hEmpty]
    cases hf : BinomialHeap.findMinNode h.roots with
    | none => simpa using (findMinNode_eq_none_iff h.roots).mp hf
    | some x =>
      simp only []
      constructor
      · intro ⟨e, he⟩
        exact absurd he (by simp)
      · intro hcontra
        rw [hcontra] at hf
        simp [BinomialHeap.findMinNode] at hf
  · rw [BinomialHeap.findMinPassengerId, hEmpty]
    cases hf : BinomialHeap.findMinNode h.roots with
    | none => simpa using (findMinNode_eq_none_iff h.roots).mp hf
    | some x =>
      simp only []
      constructor
      · intro ⟨e, he⟩
        exact absurd he (by simp)
      · intro hcontra
        rw [hcontra] at hf
        simp [BinomialHeap.findMinNode] at hf
  · rw [BinomialHeap.extractMin, hEmpty]
    cases hf : BinomialHeap.removeMinRoot h.roots with
    | none => simpa using (removeMinRoot_eq_none_iff h.roots).mp hf
    | some x =>
      obtain ⟨m, rest⟩ := x
      simp only []
      constructor
      · intro ⟨e, he⟩
        exact absurd he (by simp)
      · intro hcontra
        rw [hcontra] at hf
        simp [BinomialHeap.removeMinRoot] at hf
  · intro hempty
    have hroots : h.roots = [] := hEmpty.mp hempty
    rw [BinomialHeap.extractMinState, BinomialHeap.extractMin, hroots]
    rfl

/-- C5 witness: the theorem applied to the freshly constructed (empty)
heap. -/
theorem C5_empty_heap_errors_witness :
    (∃ e, (⟨[]⟩ : BinomialHeap).extractMin = .error e) ∧
      (⟨[]⟩ : BinomialHeap).extractMinState = ⟨[]⟩ :=
  ⟨((C5_empty_heap_errors ⟨[]⟩).2.2.2.1).mpr rfl,
    (C5_empty_heap_errors ⟨[]⟩).2.2.2.2 rfl⟩

/-! ## Flight ledger: capacity invariant -/

theorem flightReach_len {f : Flight} (hr : FlightReach f) :
    f.confirmedPassengers.length ≤ f.capacity := by
  induction hr with
  | init id orig dest cap => simp [mkFlight]
  | @add g pid prio hf ih =>
    rw [Flight.addPassenger]
    by_cases h1 : pid ∈ g.confirmedPassengers
    · rw [if_pos h1]
      exact ih
    · rw [if_neg h1]
      by_cases h2 : g.confirmedPassengers.length < g.capacity
      · rw [if_pos h2]
        simpa using h2
      · rw [if_neg h2]
        exact ih
  | @cancel g pid hf ih =>
    rw [Flight.cancelBooking]
    by_cases h1 : pid ∈ g.confirmedPassengers
    · rw [if_pos h1]
      have hlen : (g.confirmedPassengers.erase pid).length =
          g.confirmedPassengers.length - 1 := List.length_erase_of_mem h1
      have hpos : 1 ≤ g.confirmedPassengers.length := List.length_pos.mpr
        (List.ne_nil_of_mem h1)
      by_cases h2 : g.waitlistHeap.isEmpty
      · rw [if_pos h2]
        simp only []
        omega
      · rw [if_neg h2]
        cases hx : g.waitlistHeap.extractMin with
        | ok x =>
          obtain ⟨q, h'⟩ := x
          simp only [List.length_append, List.length_singleton]
          omega
        | error e =>
          simp only []
          omega
    · rw [if_neg h1]
      exact ih

/-- C7: in every reachable flight state — the constructed initial state and
anything reachable via addPassenger / cancelBooking — the confirmed count
never exceeds the capacity; a negative constructor capacity is clamped to
zero (capacity is a `Nat` internally, never negative). -/
theorem C7_capacity_invariant (f : Flight) (hr : FlightReach f) :
    f.confirmedPassengers.length ≤ f.capacity ∧
      ∀ (id orig dest : String) (cap : Int), cap < 0 →
        (mkFlight id orig dest cap).capacity = 0 := by
  refine ⟨flightReach_len hr, ?_⟩
  intro id orig dest cap hcap
  rw [mkFlight]
  simp only []
  omega

/-- C7 witness: the theorem applied to a concrete reachable state (one
passenger booked onto a capacity-1 flight), with the clamp instantiated at
capacity −3. -/
theorem C7_capacity_invariant_witness :
    (((mkFlight "F1" "X" "Y" 1).addPassenger 5 0).2.confirmedPassengers.length ≤
        ((mkFlight "F1" "X" "Y" 1).addPassenger 5 0).2.capacity ∧
      (mkFlight "F2" "X" "Y" (-3)).capacity = 0) :=
  ⟨(C7_capacity_invariant _ (FlightReach.add 5 0 (FlightReach.init "F1" "X" "Y" 1))).1,
    (C7_capacity_invariant _ (FlightReach.add 5 0 (FlightReach.init "F1" "X" "Y" 1))).2
      "F2" "X" "Y" (-3) (by norm_num)⟩

/-! ## Flight ledger: addPassenger / cancelBooking behaviour -/

/-- C9: adding a passenger who is already confirmed reports Confirmed
(`true`) and changes nothing at all — and therefore repeating the call (with
any priority) reports Confirmed again on the identical state. -/
theorem C9_idempotent_reconfirmation (f : Flight) (p prio prio2 : Int)
    (hp : p ∈ f.confirmedPassengers) :
    f.addPassenger p prio = (true, f) ∧
      (f.addPassenger p prio).2.addPassenger p prio2 = (true, f) := by
  have h1 : f.addPassenger p prio = (true, f) := by
    rw [Flight.addPassenger, if_pos hp]
  refine ⟨h1, ?_⟩
  rw [h1]
  rw [Flight.addPassenger, if_pos hp]

/-- C9 witness: booking passenger 5 onto an empty capacity-1 flight and
re-adding them twice. -/
theorem C9_idempotent_reconfirmation_witness :
    ((mkFlight "F1" "X" "Y" 1).addPassenger 5 0).2.addPassenger 5 7 =
        (true, ((mkFlight "F1" "X" "Y" 1).addPassenger 5 0).2) ∧
      (((mkFlight "F1" "X" "Y" 1).addPassenger 5 0).2.addPassenger 5 7).2.addPassenger 5 8 =
        (true, ((mkFlight "F1" "X" "Y" 1).addPassenger 5 0).2) :=
  C9_idempotent_reconfirmation _ 5 7 8 (by decide)

/-- C10: cancelling a passenger id that is not in the confirmed list reports
NotFound (`false`) and leaves the entire flight state — confirmed list,
waitlist heap and capacity — exactly unchanged. -/
theorem C10_cancel_not_found (f : Flight) (p : Int) (hp : p ∉ f.confirmedPassengers) :
    f.cancelBooking p = (false, f) := by
  rw [Flight.cancelBooking, if_neg hp]

/-- C10 witness: cancelling an unknown passenger on a flight with one
confirmed passenger and one waitlisted passenger. -/
theorem C10_cancel_not_found_witness :
    (((mkFlight "F1" "X" "Y" 1).addPassenger 5 0).2.addPassenger 6 1).2.cancelBooking 9 =
      (false, (((mkFlight "F1" "X" "Y" 1).addPassenger 5 0).2.addPassenger 6 1).2) :=
  C10_cancel_not_found _ 9 (by
    simp [mkFlight, Flight.addPassenger, BinomialHeap.insert, BinomialHeap.mergeRootLists,
      BinomialHeap.consolidate])

/-- C6: `cancelBooking p` removes `p` from the confirmed list when present
and, when the waitlist is non-empty, extracts the minimum-priority
waitlisted passenger (the one `findMinPassengerId` reports) and appends it
to the confirmed list, reporting Cancelled (`true`); when `p` is not
confirmed — even if `p` is waitlisted — it reports NotFound (`false`) with
no state change.  In particular, with capacity 2, A=1 and B=2 confirmed and
C=3 (priority 1), D=4 (priority 2) waitlisted, cancelling A yields
confirmed = [B, C] and a waitlist containing only D. -/
theorem C6_cancel_promotion :
    (∀ (f : Flight) (p : Int), p ∉ f.confirmedPassengers → f.cancelBooking p = (false, f)) ∧
      (∀ (f : Flight) (p : Int), p ∈ f.confirmedPassengers →
        f.waitlistHeap.isEmpty = true →
        f.cancelBooking p =
          (true, { f with confirmedPassengers := f.confirmedPassengers.erase p })) ∧
      (∀ (f : Flight) (p : Int), p ∈ f.confirmedPassengers →
        f.waitlistHeap.isEmpty = false →
        ∃ q h', f.waitlistHeap.extractMin = .ok (q, h') ∧
          f.waitlistHeap.findMinPassengerId = .ok q ∧
          f.cancelBooking p = (true, { f with
            confirmedPassengers := f.confirmedPassengers.erase p ++ [q],
            waitlistHeap := h' })) ∧
      (((((((mkFlight "F1" "X" "Y" 2).addPassenger 1 0).2.addPassenger 2 0).2.addPassenger
            3 1).2.addPassenger 4 2).2.cancelBooking 1).1 = true ∧
        ((((((mkFlight "F1" "X" "Y" 2).addPassenger 1 0).2.addPassenger 2 0).2.addPassenger
            3 1).2.addPassenger 4 2).2.cancelBooking 1).2.confirmedPassengers = [2, 3] ∧
        heapElems ((((((mkFlight "F1" "X" "Y" 2).addPassenger 1 0).2.addPassenger
            2 0).2.addPassenger 3 1).2.addPassenger 4 2).2.cancelBooking 1).2.waitlistHeap =
          [(2, 4)]) := by
  refine ⟨?_, ?_, ?_, ?_⟩
  · intro f p hp
    rw [Flight.cancelBooking, if_neg hp]
  · intro f p hp hemp
    rw [Flight.cancelBooking, if_pos hp, if_pos hemp]
  · intro f p hp hemp
    have hroots : f.waitlistHeap.roots ≠ [] := by
      intro hcontra
      rw [BinomialHeap.isEmpty, hcontra] at hemp
      simp at hemp
    cases hr : BinomialHeap.removeMinRoot f.waitlistHeap.roots with
    | none => exact absurd ((removeMinRoot_eq_none_iff _).mp hr) hroots
    | some x =>
      obtain ⟨m, rest⟩ := x
      have hx : f.waitlistHeap.extractMin = .ok (m.passengerId,
          ⟨BinomialHeap.consolidate
            (BinomialHeap.mergeRootLists rest m.children.reverse)⟩) := by
        rw [BinomialHeap.extractMin, hr]
      have hfind : BinomialHeap.findMinNode f.waitlistHeap.roots = some m := by
        have := removeMinRoot_fst f.waitlistHeap.roots
        rw [hr] at this
        simpa using this.symm
      refine ⟨m.passengerId, _, hx, ?_, ?_⟩
      · rw [BinomialHeap.findMinPassengerId, hfind]
      · rw [Flight.cancelBooking, if_pos hp, if_neg (by simp [hemp]), hx]
  · simp [mkFlight, Flight.addPassenger, Flight.cancelBooking, BinomialHeap.insert,
      BinomialHeap.mergeRootLists, BinomialHeap.consolidate, BinomialHeap.tableInsert,
      BinomialHeap.carryMerge, BinomialHeap.link, BinomialHeap.sortByDegree,
      BinomialHeap.insertByDegree, BinomialHeap.extractMin, BinomialHeap.removeMinRoot,
      BinomialHeap.isEmpty, heapElems, HNode.elems, elemsList, List.erase]

/-- C6 witness: the non-empty-waitlist component applied to a concrete
flight (capacity 1, passenger 5 confirmed, passenger 6 waitlisted), plus the
not-found component on a passenger present only in the waitlist. -/
theorem C6_cancel_promotion_witness :
    (∃ q h',
      (((mkFlight "F1" "X" "Y" 1).addPassenger 5 0).2.addPassenger
          6 1).2.waitlistHeap.extractMin = .ok (q, h') ∧
        (((mkFlight "F1" "X" "Y" 1).addPassenger 5 0).2.addPassenger
          6 1).2.waitlistHeap.findMinPassengerId = .ok q ∧
        ((((mkFlight "F1" "X" "Y" 1).addPassenger 5 0).2.addPassenger
          6 1).2.cancelBooking 5) = (true, { (((mkFlight "F1" "X" "Y" 1).addPassenger
            5 0).2.addPassenger 6 1).2 with
          confirmedPassengers := ((((mkFlight "F1" "X" "Y" 1).addPassenger
            5 0).2.addPassenger 6 1).2.confirmedPassengers.erase 5) ++ [q],
          waitlistHeap := h' })) ∧
    ((((mkFlight "F1" "X" "Y" 1).addPassenger 5 0).2.addPassenger 6 1).2.cancelBooking 6 =
      (false, (((mkFlight "F1" "X" "Y" 1).addPassenger 5 0).2.addPassenger 6 1).2)) :=
  ⟨C6_cancel_promotion.2.2.1 _ 5
      (by simp [mkFlight, Flight.addPassenger, BinomialHeap.insert,
        BinomialHeap.mergeRootLists, BinomialHeap.consolidate])
      (by simp [mkFlight, Flight.addPassenger, BinomialHeap.insert,
        BinomialHeap.mergeRootLists, BinomialHeap.consolidate, BinomialHeap.isEmpty]),
    C6_cancel_promotion.1 _ 6
      (by simp [mkFlight, Flight.addPassenger, BinomialHeap.insert,
        BinomialHeap.mergeRootLists, BinomialHeap.consolidate])⟩

/-! ## Flight ledger: duplicate-freedom (C8) -/

theorem nodup_confirm_step {C : List Int} {S : Multiset Int} {pid : Int}
    (h : ((C : Multiset Int) + S).Nodup) (h1 : pid ∉ C) (h2 : pid ∉ S) :
    ((↑(C ++ [pid]) : Multiset Int) + S).Nodup := by
  have heq : (↑(C ++ [pid]) : Multiset Int) + S = pid ::ₘ ((C : Multiset Int) + S) := by
    rw [← Multiset.coe_add, ← Multiset.cons_coe, Multiset.coe_nil, Multiset.add_cons,
      add_zero, Multiset.cons_add]
  rw [heq, Multiset.nodup_cons]
  refine ⟨?_, h⟩
  rw [Multiset.mem_add]
  intro hcontra
  rcases hcontra with hc | hc
  · exact h1 (Multiset.mem_coe.mp hc)
  · exact h2 hc

theorem nodup_waitlist_step {C : List Int} {S : Multiset Int} {pid : Int}
    (h : ((C : Multiset Int) + S).Nodup) (h1 : pid ∉ C) (h2 : pid ∉ S) :
    ((C : Multiset Int) + (pid ::ₘ S)).Nodup := by
  rw [Multiset.add_cons, Multiset.nodup_cons]
  refine ⟨?_, h⟩
  rw [Multiset.mem_add]
  intro hcontra
  rcases hcontra with hc | hc
  · exact h1 (Multiset.mem_coe.mp hc)
  · exact h2 hc

theorem coe_erase_le (C : List Int) (pid : Int) :
    (↑(C.erase pid) : Multiset Int) ≤ ↑C :=
  Multiset.coe_le.mpr (List.erase_sublist pid C).subperm

theorem nodup_cancel_erase {C : List Int} {S : Multiset Int} {pid : Int}
    (h : ((C : Multiset Int) + S).Nodup) :
    ((↑(C.erase pid) : Multiset Int) + S).Nodup :=
  Multiset.nodup_of_le (add_le_add_right (coe_erase_le C pid) S) h

theorem nodup_cancel_promote {C : List Int} {S' : Multiset Int} {pid q : Int}
    (h : ((C : Multiset Int) + (q ::ₘ S')).Nodup) :
    ((↑(C.erase pid ++ [q]) : Multiset Int) + S').Nodup := by
  have heq : (↑(C.erase pid ++ [q]) : Multiset Int) + S' =
      (↑(C.erase pid) : Multiset Int) + (q ::ₘ S') := by
    rw [← Multiset.coe_add, ← Multiset.cons_coe, Multiset.coe_nil, Multiset.add_cons,
      add_zero, Multiset.cons_add, Multiset.add_cons]
  rw [heq]
  exact Multiset.nodup_of_le (add_le_add_right (coe_erase_le C pid) _) h

/-- C8 counterexample: calling `addPassenger` twice with the same id on a
full (capacity-0) flight double-inserts that id into the waitlist, so the
reachable state duplicates passenger 7 across confirmed ∪ waitlist. -/
theorem C8_counterexample :
    FlightReach (((mkFlight "F1" "X" "Y" 0).addPassenger 7 1).2.addPassenger 7 2).2 ∧
      ¬ (bookingIds
        (((mkFlight "F1" "X" "Y" 0).addPassenger 7 1).2.addPassenger 7 2).2).Nodup := by
  refine ⟨FlightReach.add 7 2 (FlightReach.add 7 1 (FlightReach.init "F1" "X" "Y" 0)), ?_⟩
  have helems : heapElems (((mkFlight "F1" "X" "Y" 0).addPassenger 7 1).2.addPassenger
      7 2).2.waitlistHeap = [(1, 7), (2, 7)] := by
    simp [mkFlight, Flight.addPassenger, BinomialHeap.insert, BinomialHeap.mergeRootLists,
      BinomialHeap.consolidate, BinomialHeap.tableInsert, BinomialHeap.carryMerge,
      BinomialHeap.link, BinomialHeap.sortByDegree, BinomialHeap.insertByDegree,
      heapElems, HNode.elems, elemsList]
  have hconf : (((mkFlight "F1" "X" "Y" 0).addPassenger 7 1).2.addPassenger
      7 2).2.confirmedPassengers = [] := by
    simp [mkFlight, Flight.addPassenger]
  rw [bookingIds, heapMS, helems, hconf]
  simp [Multiset.map_coe]

/-- C8 (amended): if `addPassenger` is never called with an id currently in
the waitlist heap (the code performs no such check — §9 of the spec), then
in every reachable flight state each passenger id appears at most once
across the confirmed list and the waitlist heap together. -/
theorem C8_no_duplicate_bookings (f : Flight) (hr : FlightReachSafe f) :
    (bookingIds f).Nodup := by
  induction hr with
  | init id orig dest cap =>
    rw [bookingIds, mkFlight]
    rw [heapMS, heapElems]
    simp [elemsList]
  | @add g pid prio hf hnot ih =>
    have hnotS : pid ∉ (heapMS g.waitlistHeap).map Prod.snd := by
      intro hmem
      apply hnot
      rw [heapMS, Multiset.map_coe] at hmem
      exact Multiset.mem_coe.mp hmem
    rw [Flight.addPassenger]
    by_cases h1 : pid ∈ g.confirmedPassengers
    · rw [if_pos h1]
      exact ih
    · rw [if_neg h1]
      by_cases h2 : g.confirmedPassengers.length < g.capacity
      · rw [if_pos h2]
        rw [bookingIds] at ih ⊢
        exact nodup_confirm_step ih h1 hnotS
      · rw [if_neg h2]
        rw [bookingIds] at ih ⊢
        show ((g.confirmedPassengers : Multiset Int) +
          (heapMS (g.waitlistHeap.insert prio pid)).map Prod.snd).Nodup
        rw [insert_ms, Multiset.map_cons]
        exact nodup_waitlist_step ih h1 hnotS
  | @cancel g pid hf ih =>
    rw [Flight.cancelBooking]
    by_cases h1 : pid ∈ g.confirmedPassengers
    · rw [if_pos h1]
      by_cases h2 : g.waitlistHeap.isEmpty
      · rw [if_pos h2]
        rw [bookingIds] at ih ⊢
        exact nodup_cancel_erase ih
      · rw [if_neg h2]
        cases hx : g.waitlistHeap.extractMin with
        | ok x =>
          obtain ⟨q, h'⟩ := x
          obtain ⟨p, hms, _, _, _⟩ := extract_ms _ _ _ hx
          rw [bookingIds] at ih ⊢
          show ((g.confirmedPassengers.erase pid ++ [q] : List Int) : Multiset Int) +
            ((heapMS h').map Prod.snd) |>.Nodup
          rw [hms, Multiset.map_cons] at ih
          exact nodup_cancel_promote ih
        | error e =>
          rw [bookingIds] at ih ⊢
          exact nodup_cancel_erase ih
    · rw [if_neg h1]
      exact ih

/-- C8 witness: the amended invariant at a concrete state reached without
ever re-adding a waitlisted id (capacity 1; passenger 5 confirmed,
passenger 6 waitlisted). -/
theorem C8_no_duplicate_bookings_witness :
    (bookingIds (((mkFlight "F1" "X" "Y" 1).addPassenger 5 0).2.addPassenger 6 1).2).Nodup :=
  C8_no_duplicate_bookings _
    (FlightReachSafe.add 6 1
      (FlightReachSafe.add 5 0 (FlightReachSafe.init "F1" "X" "Y" 1)
        (by simp [mkFlight, heapElems, elemsList]))
      (by simp [mkFlight, Flight.addPassenger, heapElems, elemsList]))

/-- C4 witness: one insert followed by one extractMin leaves a heap of size
1 − 1 = 0. -/
theorem C4_size_conservation_witness :
    (⟨[]⟩ : BinomialHeap).getSize = 1 - 1 ∧ 1 ≤ 1 :=
  C4_size_conservation ⟨[]⟩ 1 1
    (@HeapTrace.extract ((⟨[]⟩ : BinomialHeap).insert 5 1) 1 0 1 ⟨[]⟩
      (HeapTrace.insert 5 1 HeapTrace.empty)
      (by simp [BinomialHeap.insert, BinomialHeap.mergeRootLists, BinomialHeap.consolidate,
        BinomialHeap.extractMin, BinomialHeap.removeMinRoot]))
